import Mathlib

/-!
Verification of the srch query-matching engine: the path-specification
parser and matcher, the numeric-term parser, the predicate evaluator and
the recursive traversal with result accumulation, shallowly embedded from
`src/syntax.rs` and `src/parse.rs`.

Rust strings are modelled as Lean `String` (a list of characters); the
string primitives of the Rust standard library that the code relies on
(`strip_prefix`, `find`, `rsplit_once`, `split`, `join`, `trim_matches`,
`parse::<f64>`) are given explicit executable models below, operating on
`String.data`.  JSON numbers are modelled as rationals, the exact values
the comparisons of the code act on.
-/

namespace Srch

/-- Model of Rust `str::starts_with` on character lists. -/
def listIsPre : List Char → List Char → Bool
  | [], _ => true
  | _ :: _, [] => false
  | a :: p, b :: s => a == b && listIsPre p s

/-- Model of Rust `str::strip_prefix`: the remainder of `s` after the
leading occurrence of `p`, when `s` starts with `p`. -/
def stripPre (p s : List Char) : Option (List Char) :=
  if listIsPre p s then some (s.drop p.length) else none

/-- Model of Rust `str::find` on character lists: the first index at which
the pattern occurs (`some 0` for the empty pattern, as in Rust). -/
def findFrom (pat : List Char) : List Char → Option Nat
  | [] => if listIsPre pat [] then some 0 else none
  | c :: t =>
    if listIsPre pat (c :: t) then some 0
    else (findFrom pat t).map (· + 1)

/-- The pattern `pat` occurs in `s` at index `i` (Boolean form). -/
def occursAtB (s pat : List Char) (i : Nat) : Bool :=
  decide (i + pat.length ≤ s.length) && listIsPre pat (s.drop i)

/-- Downward scan for the last occurrence of `pat` in `s`, bounded by `n`. -/
def findLastAux (s pat : List Char) : Nat → Option Nat
  | 0 => if occursAtB s pat 0 then some 0 else none
  | n + 1 => if occursAtB s pat (n + 1) then some (n + 1) else findLastAux s pat n

/-- Model of the reverse search of Rust `str::rsplit_once`: the index of the
last occurrence of `pat` in `s`. -/
def findLastIdx (s pat : List Char) : Option Nat :=
  findLastAux s pat s.length

/-- Model of Rust `str::rsplit_once`: split at the last occurrence of the
separator, none when the separator does not occur. -/
def rsplitOnce (s sep : String) : Option (String × String) :=
  match findLastIdx s.data sep.data with
  | none => none
  | some i => some (⟨s.data.take i⟩, ⟨s.data.drop (i + sep.data.length)⟩)

/-- Model of Rust `str::split` collected to a vector, for the empty pattern:
an empty piece, each character, and a final empty piece. -/
def splitEmptyPat (s : List Char) : List (List Char) :=
  [] :: s.map (fun c => [c]) ++ [[]]

/-- Model of Rust `str::split` for a non-empty pattern, with enough fuel:
cut at each occurrence of the pattern, left to right. -/
def splitNE (sep : List Char) : Nat → List Char → List (List Char)
  | 0, s => [s]
  | fuel + 1, s =>
    match findFrom sep s with
    | none => [s]
    | some i => s.take i :: splitNE sep fuel (s.drop (i + sep.length))

/-- Model of Rust `str::split(sep).collect::<Vec<_>>()`. -/
def splitSep (s sep : String) : List String :=
  if sep.data.isEmpty then (splitEmptyPat s.data).map (fun l => ⟨l⟩)
  else (splitNE sep.data (s.data.length + 1) s.data).map (fun l => ⟨l⟩)

/-- Model of Rust `Vec::join` on character lists. -/
def strJoinL (sep : List Char) : List (List Char) → List Char
  | [] => []
  | [x] => x
  | x :: xs => x ++ sep ++ strJoinL sep xs

/-- Model of Rust `Vec::<String>::join`. -/
def strJoin (sep : String) (xs : List String) : String :=
  ⟨strJoinL sep.data (xs.map String.data)⟩

/-- Model of Rust `str::trim_matches('"')`: strip every leading and every
trailing double-quote character. -/
def trimQuotes (s : String) : String :=
  ⟨((s.data.dropWhile (· == '"')).reverse.dropWhile (· == '"')).reverse⟩

/-- The natural number a list of decimal digits denotes. -/
def natOfDigits (l : List Char) : Nat :=
  l.foldl (fun a c => a * 10 + (c.toNat - '0'.toNat)) 0

/-- Split a character list at the first character satisfying `p`: the part
before it and, when present, the part after it (dropping that character). -/
def splitAtChar (p : Char → Bool) : List Char → List Char × Option (List Char)
  | [] => ([], none)
  | c :: t =>
    if p c then ([], some t)
    else
      let r := splitAtChar p t
      (c :: r.1, r.2)

/-- The value of a decimal mantissa `ip.fp` with sign `neg`. -/
def decimalValue (neg : Bool) (ip fp : List Char) : ℚ :=
  let m : ℚ := (natOfDigits (ip ++ fp) : ℚ) / (10 : ℚ) ^ fp.length
  if neg then -m else m

/-- Apply a decimal exponent to a rational. -/
def applyExp (q : ℚ) (negExp : Bool) (e : Nat) : ℚ :=
  if negExp then q / (10 : ℚ) ^ e else q * (10 : ℚ) ^ e

/-- Model of the Rust standard library float parser `str::parse::<f64>` on
finite decimal literals: optional sign, digits with at most one decimal
point and at least one digit, optional decimal exponent.  The value is kept
exact as a rational. -/
def parseF64L (cs : List Char) : Option ℚ :=
  let (neg, cs) :=
    match cs with
    | '+' :: r => (false, r)
    | '-' :: r => (true, r)
    | r => (false, r)
  let (mant, expPart) := splitAtChar (fun c => c == 'e' || c == 'E') cs
  let (ip, fpOpt) := splitAtChar (· == '.') mant
  let fp := fpOpt.getD []
  if ip.all Char.isDigit && fp.all Char.isDigit && !(ip ++ fp).isEmpty
      && (fpOpt.isNone || fp.all Char.isDigit) then
    let base := decimalValue neg ip fp
    match expPart with
    | none => some base
    | some ecs =>
      let (negExp, ds) :=
        match ecs with
        | '+' :: r => (false, r)
        | '-' :: r => (true, r)
        | r => (false, r)
      if ds.all Char.isDigit && !ds.isEmpty then
        some (applyExp base negExp (natOfDigits ds))
      else none
  else none

/-- Model of `str::parse::<f64>` on `String`. -/
def parseF64 (s : String) : Option ℚ := parseF64L s.data

/-- Specification-side reading of an occurrence: the pattern `pat` occurs
in `s` at index `i`. -/
def occursAt (s pat : List Char) (i : Nat) : Prop :=
  i + pat.length ≤ s.length ∧ ∃ t, s.drop i = pat ++ t

/-! ## `src/syntax.rs` -/

/-- The error message of `parse_search_path` (syntax.rs). -/
def malformedPathMsg : String :=
  "Invalid search term format. Field name or expected value is empty."

/-- Embedding of `parse_search_path` (syntax.rs): split the search path at
the last occurrence of the separator into ancestor segments and a field
name; error when the field name comes out empty. -/
def parse_search_path (searchPath fieldPathSeparator : String) :
    Except String (List String × String) :=
  match rsplitOnce searchPath fieldPathSeparator with
  | some (fieldPathStr, fieldName) =>
    if fieldName = "" then .error malformedPathMsg
    else .ok (splitSep fieldPathStr fieldPathSeparator, fieldName)
  | none =>
    if searchPath = "" then .error malformedPathMsg
    else .ok ([], searchPath)

/-- Embedding of `ComparisonOperator` (syntax.rs). -/
inductive ComparisonOperator where
  | lessThan
  | lessThanOrEqual
  | greaterThan
  | greaterThanOrEqual
  | equal
deriving DecidableEq

/-- Embedding of `ComparisonOperator::from_str` (syntax.rs). -/
def ComparisonOperator.fromStr (opStr : String) : Option ComparisonOperator :=
  match opStr with
  | "<" => some .lessThan
  | "<=" => some .lessThanOrEqual
  | ">" => some .greaterThan
  | ">=" => some .greaterThanOrEqual
  | "==" => some .equal
  | _ => none

/-- Embedding of `NumericSearchTerm` (syntax.rs). -/
inductive NumericSearchTerm where
  | singleComparison (op : ComparisonOperator) (num : ℚ)
  | rangeComparison (op1 : ComparisonOperator) (num1 : ℚ)
      (op2 : ComparisonOperator) (num2 : ℚ)
deriving DecidableEq

/-- The operator list of `parse_as_single` tried, in the source's order. -/
def singleOpsTry : List String → String → Option NumericSearchTerm
  | [], _ => none
  | opStr :: rest, t =>
    match stripPre opStr.data t.data with
    | some numStr =>
      match parseF64L numStr, ComparisonOperator.fromStr opStr with
      | some numValue, some operator =>
        some (.singleComparison operator numValue)
      | _, _ => singleOpsTry rest t
    | none => singleOpsTry rest t

/-- Embedding of `NumericSearchTerm::parse_as_single` (syntax.rs): the term
must begin with one of `<=`, `>=`, `<`, `>`, `==` — tried in this order —
followed by a parseable float. -/
def NumericSearchTerm.parse_as_single (searchTerm : String) :
    Option NumericSearchTerm :=
  singleOpsTry ["<=", ">=", "<", ">", "=="] searchTerm

/-- The inner operator loop of `parse_as_range`: given the stripped first
operator and the remainder, try each candidate second operator. -/
def rangeOp2Try (op1Str : String) (rest1 : List Char) :
    List String → Option NumericSearchTerm
  | [] => none
  | op2Str :: rest =>
    match findFrom op2Str.data rest1 with
    | some numStr1EndOp2 =>
      let numStr1 := rest1.take numStr1EndOp2
      let rest2 := rest1.drop numStr1EndOp2
      let numStr2 := rest2.drop op2Str.data.length
      match parseF64L numStr1, parseF64L numStr2 with
      | some num1, some num2 =>
        match ComparisonOperator.fromStr op1Str, ComparisonOperator.fromStr op2Str with
        | some op1, some op2 => some (.rangeComparison op1 num1 op2 num2)
        | _, _ => rangeOp2Try op1Str rest1 rest
      | _, _ => rangeOp2Try op1Str rest1 rest
    | none => rangeOp2Try op1Str rest1 rest

/-- The outer operator loop of `parse_as_range`. -/
def rangeOp1Try : List String → String → Option NumericSearchTerm
  | [], _ => none
  | op1Str :: rest, t =>
    match stripPre op1Str.data t.data with
    | some rest1 =>
      match rangeOp2Try op1Str rest1 ["<=", ">=", "<", ">"] with
      | some r => some r
      | none => rangeOp1Try rest t
    | none => rangeOp1Try rest t

/-- Embedding of `NumericSearchTerm::parse_as_range` (syntax.rs): a leading
operator from `<=`, `>=`, `<`, `>`, a numeral, a second such operator and a
second numeral. -/
def NumericSearchTerm.parse_as_range (searchTerm : String) :
    Option NumericSearchTerm :=
  rangeOp1Try ["<=", ">=", "<", ">"] searchTerm

/-- Embedding of `NumericSearchTerm::from_search_term` (syntax.rs): try the
range form first, then the single comparison; `none` when neither parses. -/
def NumericSearchTerm.from_search_term (searchTerm : String) :
    Option NumericSearchTerm :=
  match NumericSearchTerm.parse_as_range searchTerm with
  | some rangeTerm => some rangeTerm
  | none =>
    match NumericSearchTerm.parse_as_single searchTerm with
    | some singleTerm => some singleTerm
    | none => none

/-- Embedding of `NumericSearchTerm::compare_single` (syntax.rs). -/
def NumericSearchTerm.compare_single (self : NumericSearchTerm) (jsonNum : ℚ) : Bool :=
  match self with
  | .singleComparison op targetNum =>
    match op with
    | .greaterThan => decide (jsonNum > targetNum)
    | .lessThan => decide (jsonNum < targetNum)
    | .greaterThanOrEqual => decide (jsonNum ≥ targetNum)
    | .lessThanOrEqual => decide (jsonNum ≤ targetNum)
    | .equal => decide (jsonNum = targetNum)
  | _ => false

/-- Embedding of `NumericSearchTerm::compare_range` (syntax.rs): both
component comparisons, combined with logical AND. -/
def NumericSearchTerm.compare_range (self : NumericSearchTerm) (jsonNum : ℚ) : Bool :=
  match self with
  | .rangeComparison op1 num1 op2 num2 =>
    (NumericSearchTerm.singleComparison op1 num1).compare_single jsonNum
      && (NumericSearchTerm.singleComparison op2 num2).compare_single jsonNum
  | _ => false

/-- Embedding of `NumericSearchTerm::matches` (syntax.rs). -/
def NumericSearchTerm.matches (self : NumericSearchTerm) (jsonNum : ℚ) : Bool :=
  match self with
  | .singleComparison _ _ => self.compare_single jsonNum
  | .rangeComparison _ _ _ _ => self.compare_range jsonNum

/-! ## The JSON value model (`serde_json::Value`) -/

/-- The recursive JSON value (`serde_json::Value`).  Numbers are kept as
exact rationals, the values `as_f64` hands to the comparisons; an object is
its deterministic key/value iteration sequence. -/
inductive Json where
  | null
  | bool (b : Bool)
  | num (q : ℚ)
  | str (s : String)
  | arr (items : List Json)
  | obj (fields : List (String × Json))

/-- Model of `serde_json::Map::get`: the value under the first matching key. -/
def objGet (fields : List (String × Json)) (key : String) : Option Json :=
  match fields with
  | [] => none
  | (k, v) :: rest => if k = key then some v else objGet rest key

/-- Model of `Value::as_f64`: the numeric value of a number, `none` for any
other variant. -/
def Json.as_f64 (value : Json) : Option ℚ :=
  match value with
  | .num q => some q
  | _ => none

/-- Count how often `p` divides `m` (fuel-bounded). -/
def countFac (p : Nat) : Nat → Nat → Nat
  | 0, _ => 0
  | fuel + 1, m =>
    if 1 < p ∧ m ≠ 0 ∧ m % p = 0 then 1 + countFac p fuel (m / p) else 0

/-- Model of the number rendering of `serde_json` (`Number::to_string`):
integers print with no decimal point, other values in plain decimal
notation.  This is a model of the external serializer on
decimal-representable rationals; no claim depends on its exact output. -/
def numToString (q : ℚ) : String :=
  if q.den = 1 then toString q.num
  else
    let k := max (countFac 2 q.den q.den) (countFac 5 q.den q.den)
    let scaled : Int := q.num * (10 : Int) ^ k / (q.den : Int)
    let ds := toString scaled.natAbs
    let ds :=
      if ds.length ≤ k then ⟨List.replicate (k + 1 - ds.length) '0' ++ ds.data⟩ else ds
    (if q.num < 0 then "-" else "")
      ++ ⟨ds.data.take (ds.length - k)⟩ ++ "." ++ ⟨ds.data.drop (ds.length - k)⟩

/-- One hexadecimal digit. -/
def hexDigit (n : Nat) : Char :=
  if n < 10 then Char.ofNat ('0'.toNat + n) else Char.ofNat ('a'.toNat + n - 10)

/-- JSON string escaping of one character, as `serde_json` emits it. -/
def escapeChar (c : Char) : List Char :=
  if c == '"' then ['\\', '"']
  else if c == '\\' then ['\\', '\\']
  else if c == '\n' then ['\\', 'n']
  else if c == '\r' then ['\\', 'r']
  else if c == '\t' then ['\\', 't']
  else if c == '\x08' then ['\\', 'b']
  else if c == '\x0c' then ['\\', 'f']
  else if c.toNat < 0x20 then
    ['\\', 'u', hexDigit (c.toNat / 4096 % 16), hexDigit (c.toNat / 256 % 16),
      hexDigit (c.toNat / 16 % 16), hexDigit (c.toNat % 16)]
  else [c]

/-- A JSON string literal with its quotes, as `serde_json` emits it. -/
def escapeString (s : String) : String :=
  ⟨'"' :: (s.data.map escapeChar).flatten ++ ['"']⟩

/- Model of `Value::to_string` (`serde_json`'s compact serialization),
mutually with the body renderers for arrays and objects. -/
mutual
def jsonToString : Json → String
  | .null => "null"
  | .bool b => if b then "true" else "false"
  | .num q => numToString q
  | .str s => escapeString s
  | .arr items => "[" ++ jsonArrBody items ++ "]"
  | .obj fields => "\x7b" ++ jsonObjBody fields ++ "\x7d"

def jsonArrBody : List Json → String
  | [] => ""
  | [x] => jsonToString x
  | x :: xs => jsonToString x ++ "," ++ jsonArrBody xs

def jsonObjBody : List (String × Json) → String
  | [] => ""
  | [(k, v)] => escapeString k ++ ":" ++ jsonToString v
  | (k, v) :: xs => escapeString k ++ ":" ++ jsonToString v ++ "," ++ jsonObjBody xs
end

/-! ## `src/parse.rs` -/

/-- Embedding of `value_to_string` (parse.rs): strings pass through without
quotes, booleans and numbers render in their textual form, everything else
via the serializer. -/
def value_to_string (value : Json) : String :=
  match value with
  | .str s => s
  | .bool b => if b then "true" else "false"
  | .num n => numToString n
  | v => jsonToString v

/-- Embedding of `SearchContext` (parse.rs).  The one Rust field
`search_regex` is modelled by two Lean fields: the pattern string
(`search_regex.as_str()`, what the numeric parsers read) and the matcher
(`search_regex.is_match`, the external regex engine). -/
structure SearchContext where
  searchTermStr : String
  regexIsMatch : String → Bool
  single : Bool
  hide_value : Bool
  field_path_separator : String
  numeric_search : Bool

/-- The cursor walk of the path check in `check_object_match` (parse.rs):
advance over the accumulated path, moving the specification cursor on every
equal segment; true when the whole specification was consumed. -/
def pathScan : List String → List String → Bool
  | _, [] => true
  | [], _ :: _ => false
  | c :: currentPathRest, s :: specRest =>
    if c = s then pathScan currentPathRest specRest
    else pathScan currentPathRest (s :: specRest)

/-- The `path_matches` computation of `check_object_match` (parse.rs): the
cursor walk when the specification is non-empty, vacuously true otherwise. -/
def check_path_matches (field_path_parts current_path : List String) : Bool :=
  if !field_path_parts.isEmpty then pathScan current_path field_path_parts
  else true

/-- The operator loop of `parse_numeric_search_term` (parse.rs). -/
def singleTermTry : List String → String → Option (String × String)
  | [], _ => none
  | op :: rest, t =>
    match stripPre op.data t.data with
    | some numStr => some (op, ⟨numStr⟩)
    | none => singleTermTry rest t

/-- Embedding of `parse_numeric_search_term` (parse.rs): strip one of the
five operators — in the source's order — and return it with the remainder. -/
def parse_numeric_search_term (searchTerm : String) : Option (String × String) :=
  singleTermTry ["<=", ">=", "==", "<", ">"] searchTerm

/-- The inner operator loop of `parse_numeric_range_term` (parse.rs). -/
def rangeTermInner (op1 : String) (searchTerm : String) :
    List String → Option ((String × String) × (String × String))
  | [] => none
  | op2 :: rest =>
    match stripPre op1.data searchTerm.data with
    | some rest1 =>
      match findFrom op2.data rest1 with
      | some numStr1EndOp2 =>
        let numStr1 := rest1.take numStr1EndOp2
        let rest2 := rest1.drop numStr1EndOp2
        let opStr2 := rest2.take op2.data.length
        let numStr2 := rest2.drop op2.data.length
        if !numStr1.isEmpty && !numStr2.isEmpty then
          some ((op1, ⟨numStr1⟩), (⟨opStr2⟩, ⟨numStr2⟩))
        else rangeTermInner op1 searchTerm rest
      | none => rangeTermInner op1 searchTerm rest
    | none => rangeTermInner op1 searchTerm rest

/-- The outer operator loop of `parse_numeric_range_term` (parse.rs). -/
def rangeTermOuter (searchTerm : String) :
    List String → Option ((String × String) × (String × String))
  | [] => none
  | op1 :: rest =>
    match rangeTermInner op1 searchTerm ["<=", ">=", "<", ">"] with
    | some r => some r
    | none => rangeTermOuter searchTerm rest

/-- Embedding of `parse_numeric_range_term` (parse.rs): a leading operator,
a non-empty numeral, a second operator and a non-empty remainder, returned
as strings (the float parse happens at the use site). -/
def parse_numeric_range_term (searchTerm : String) :
    Option ((String × String) × (String × String)) :=
  rangeTermOuter searchTerm ["<=", ">=", "<", ">"]

/-- Embedding of `compare_numbers` (parse.rs). -/
def compare_numbers (jsonNum targetNum : ℚ) (op : String) : Bool :=
  match op with
  | ">" => decide (jsonNum > targetNum)
  | "<" => decide (jsonNum < targetNum)
  | ">=" => decide (jsonNum ≥ targetNum)
  | "<=" => decide (jsonNum ≤ targetNum)
  | "==" => decide (jsonNum = targetNum)
  | _ => false

/-- Embedding of `compare_number_range` (parse.rs): both component
comparisons, combined with logical AND. -/
def compare_number_range (jsonNum targetNum1 : ℚ) (op1 : String)
    (targetNum2 : ℚ) (op2 : String) : Bool :=
  let condition1 := compare_numbers jsonNum targetNum1 op1
  let condition2 := compare_numbers jsonNum targetNum2 op2
  condition1 && condition2

/-- The `full_path` format of `check_object_match` (parse.rs): the joined
accumulated path, the separator when that path is non-empty, and the field
name. -/
def full_path (current_path : List String) (field_name sep : String) : String :=
  strJoin sep current_path
    ++ (if current_path.isEmpty then "" else sep) ++ field_name

/-- The `output_string` format of `check_object_match` (parse.rs): the path
alone under `hide_value`, otherwise the path, a colon and the quote-trimmed
stringified value. -/
def output_string (ctx : SearchContext) (fullPath : String) (value : Json) : String :=
  if ctx.hide_value then fullPath
  else fullPath ++ ": " ++ trimQuotes (value_to_string value)

/-- The single-comparison fallback block of `check_object_match` (parse.rs),
which the source spells out twice verbatim. -/
def numeric_single_check (ctx : SearchContext) (value : Json)
    (current_path : List String) (field_name : String) : List String :=
  match parse_numeric_search_term ctx.searchTermStr with
  | some (op, numStr) =>
    match parseF64 numStr, value.as_f64 with
    | some targetNum, some jsonNum =>
      if compare_numbers jsonNum targetNum op then
        [output_string ctx (full_path current_path field_name ctx.field_path_separator) value]
      else []
    | _, _ => []
  | none => []

/-- Embedding of `check_object_match` (parse.rs): the path check, the field
lookup, then the numeric (range, falling back to single) or regex predicate
on the field's value, producing at most one formatted result. -/
def check_object_match (obj : List (String × Json)) (field_path_parts : List String)
    (field_name : String) (current_path : List String) (ctx : SearchContext) :
    List String :=
  let path_matches := check_path_matches field_path_parts current_path
  if !path_matches then []
  else
    match objGet obj field_name with
    | none => []
    | some value =>
      if ctx.numeric_search then
        match parse_numeric_range_term ctx.searchTermStr with
        | some ((op1, numStr1), (op2, numStr2)) =>
          match parseF64 numStr1, parseF64 numStr2, value.as_f64 with
          | some targetNum1, some targetNum2, some jsonNum =>
            if compare_number_range jsonNum targetNum1 op1 targetNum2 op2 then
              [output_string ctx (full_path current_path field_name ctx.field_path_separator) value]
            else []
          | _, _, _ => numeric_single_check ctx value current_path field_name
        | none => numeric_single_check ctx value current_path field_name
      else
        if ctx.regexIsMatch (trimQuotes (value_to_string value)) then
          [output_string ctx (full_path current_path field_name ctx.field_path_separator) value]
        else []

/-- The tail of `search_object` (parse.rs) after its child loop: the node's
own check, the single-mode early return, and the emptiness test on the
collected results. -/
def objAssemble (obj : List (String × Json)) (field_path_parts : List String)
    (field_name : String) (current_path : List String) (ctx : SearchContext)
    (results : List String) : Option (List String) :=
  let check_results := check_object_match obj field_path_parts field_name current_path ctx
  if ctx.single && !check_results.isEmpty then some check_results
  else
    let results := if !check_results.isEmpty then results ++ check_results else results
    if !results.isEmpty then some results else none

/- Embedding of the recursive engine of parse.rs.  The `for` loops with
mutable `results` and early `return` are modelled with `Except`: `.error`
carries a single-mode early return, `.ok` the accumulated results of a
completed loop.  `search_json_value`'s object and array cases are the
bodies of `search_object` and `search_array`, restated below. -/
mutual
def search_json_value (json_value : Json) (field_path_parts : List String)
    (field_name : String) (current_path : List String) (ctx : SearchContext) :
    Option (List String) :=
  match json_value with
  | .obj fields =>
    match search_obj_fields fields field_path_parts field_name current_path ctx [] with
    | .error earlyReturn => some earlyReturn
    | .ok results => objAssemble fields field_path_parts field_name current_path ctx results
  | .arr items =>
    match search_arr_items items field_path_parts field_name current_path ctx 0 [] with
    | .error earlyReturn => some earlyReturn
    | .ok results => if !results.isEmpty then some results else none
  | _ => none

def search_obj_fields (fields : List (String × Json)) (field_path_parts : List String)
    (field_name : String) (current_path : List String) (ctx : SearchContext)
    (results : List String) : Except (List String) (List String) :=
  match fields with
  | [] => .ok results
  | (key, value) :: rest =>
    match search_json_value value field_path_parts field_name
        (current_path ++ [key]) ctx with
    | some recursive_results =>
      if ctx.single then .error recursive_results
      else search_obj_fields rest field_path_parts field_name current_path ctx
        (results ++ recursive_results)
    | none => search_obj_fields rest field_path_parts field_name current_path ctx results

def search_arr_items (items : List Json) (field_path_parts : List String)
    (field_name : String) (current_path : List String) (ctx : SearchContext)
    (index : Nat) (results : List String) : Except (List String) (List String) :=
  match items with
  | [] => .ok results
  | item :: rest =>
    match search_json_value item field_path_parts field_name
        (current_path ++ [toString index]) ctx with
    | some recursive_results =>
      if ctx.single then .error recursive_results
      else search_arr_items rest field_path_parts field_name current_path ctx
        (index + 1) (results ++ recursive_results)
    | none =>
      search_arr_items rest field_path_parts field_name current_path ctx
        (index + 1) results
end

/-- Embedding of `search_object` (parse.rs): visit every key/value child,
then check this object itself. -/
def search_object (obj : List (String × Json)) (field_path_parts : List String)
    (field_name : String) (current_path : List String) (ctx : SearchContext) :
    Option (List String) :=
  match search_obj_fields obj field_path_parts field_name current_path ctx [] with
  | .error earlyReturn => some earlyReturn
  | .ok results => objAssemble obj field_path_parts field_name current_path ctx results

/-- Embedding of `search_array` (parse.rs): visit every element with the
stringified index appended to the path. -/
def search_array (arr : List Json) (field_path_parts : List String)
    (field_name : String) (current_path : List String) (ctx : SearchContext) :
    Option (List String) :=
  match search_arr_items arr field_path_parts field_name current_path ctx 0 [] with
  | .error earlyReturn => some earlyReturn
  | .ok results => if !results.isEmpty then some results else none

/-! ## The JSON decoder model (`serde_json::from_str`) -/

/-- Skip JSON whitespace. -/
def skipWs (cs : List Char) : List Char :=
  cs.dropWhile (fun c => c == ' ' || c == '\t' || c == '\n' || c == '\r')

/-- The value of a hexadecimal digit. -/
def hexVal (c : Char) : Option Nat :=
  if '0' ≤ c ∧ c ≤ '9' then some (c.toNat - '0'.toNat)
  else if 'a' ≤ c ∧ c ≤ 'f' then some (c.toNat - 'a'.toNat + 10)
  else if 'A' ≤ c ∧ c ≤ 'F' then some (c.toNat - 'A'.toNat + 10)
  else none

/-- The body of a JSON string literal after its opening quote: the decoded
content and the input after the closing quote. -/
def parseStringBody : List Char → Option (List Char × List Char)
  | [] => none
  | '"' :: rest => some ([], rest)
  | '\\' :: 'u' :: h1 :: h2 :: h3 :: h4 :: rest =>
    match hexVal h1, hexVal h2, hexVal h3, hexVal h4 with
    | some a, some b, some c, some d =>
      match parseStringBody rest with
      | some (s, r) => some (Char.ofNat (a * 4096 + b * 256 + c * 16 + d) :: s, r)
      | none => none
    | _, _, _, _ => none
  | '\\' :: e :: rest =>
    match
      (if e == '"' then some '"'
       else if e == '\\' then some '\\'
       else if e == '/' then some '/'
       else if e == 'n' then some '\n'
       else if e == 't' then some '\t'
       else if e == 'r' then some '\r'
       else if e == 'b' then some '\x08'
       else if e == 'f' then some '\x0c'
       else none) with
    | some c =>
      match parseStringBody rest with
      | some (s, r) => some (c :: s, r)
      | none => none
    | none => none
  | c :: rest =>
    if c.toNat < 0x20 then none
    else
      match parseStringBody rest with
      | some (s, r) => some (c :: s, r)
      | none => none

/-- The exponent of a JSON number applied to the mantissa. -/
def parseJsonExponent (base : ℚ) (cs : List Char) : Option (ℚ × List Char) :=
  let (negExp, cs1) :=
    match cs with
    | '+' :: r => (false, r)
    | '-' :: r => (true, r)
    | r => (false, r)
  let ds := cs1.takeWhile Char.isDigit
  if ds.isEmpty then none
  else some (applyExp base negExp (natOfDigits ds), cs1.dropWhile Char.isDigit)

/-- The optional exponent after the mantissa of a JSON number. -/
def parseAfterFrac (neg : Bool) (intDigits fracDigits : List Char)
    (cs : List Char) : Option (ℚ × List Char) :=
  let base := decimalValue neg intDigits fracDigits
  match cs with
  | 'e' :: r => parseJsonExponent base r
  | 'E' :: r => parseJsonExponent base r
  | r => some (base, r)

/-- The optional fraction after the integer digits of a JSON number (a dot
requires at least one digit). -/
def parseJsonNumberTail (neg : Bool) (intDigits : List Char) (cs : List Char) :
    Option (ℚ × List Char) :=
  match cs with
  | '.' :: r =>
    let fd := r.takeWhile Char.isDigit
    if fd.isEmpty then none
    else parseAfterFrac neg intDigits fd (r.dropWhile Char.isDigit)
  | r => parseAfterFrac neg intDigits [] r

/-- A JSON number per the JSON grammar: optional minus, an integer part
with no leading zero, an optional fraction, an optional exponent. -/
def parseJsonNumber (cs : List Char) : Option (ℚ × List Char) :=
  let (neg, cs1) :=
    match cs with
    | '-' :: r => (true, r)
    | r => (false, r)
  match cs1 with
  | [] => none
  | c :: r =>
    if c = '0' then parseJsonNumberTail neg ['0'] r
    else if c.isDigit then
      parseJsonNumberTail neg (c :: r.takeWhile Char.isDigit) (r.dropWhile Char.isDigit)
    else none

/- The recursive JSON value parser, fuel-bounded; the fuel passed at the
top is generous enough for any input that parses at all. -/
mutual
def parseValue : Nat → List Char → Option (Json × List Char)
  | 0, _ => none
  | fuel + 1, cs =>
    match skipWs cs with
    | 'n' :: 'u' :: 'l' :: 'l' :: rest => some (.null, rest)
    | 't' :: 'r' :: 'u' :: 'e' :: rest => some (.bool true, rest)
    | 'f' :: 'a' :: 'l' :: 's' :: 'e' :: rest => some (.bool false, rest)
    | '"' :: rest =>
      match parseStringBody rest with
      | some (content, rest2) => some (.str ⟨content⟩, rest2)
      | none => none
    | '[' :: rest =>
      match skipWs rest with
      | ']' :: rest2 => some (.arr [], rest2)
      | _ => parseElems fuel rest []
    | '{' :: rest =>
      match skipWs rest with
      | '}' :: rest2 => some (.obj [], rest2)
      | _ => parseMembers fuel rest []
    | rest =>
      match parseJsonNumber rest with
      | some (q, rest2) => some (.num q, rest2)
      | none => none

def parseElems : Nat → List Char → List Json → Option (Json × List Char)
  | 0, _, _ => none
  | fuel + 1, cs, acc =>
    match parseValue fuel cs with
    | some (v, rest) =>
      match skipWs rest with
      | ',' :: rest2 => parseElems fuel rest2 (acc ++ [v])
      | ']' :: rest2 => some (.arr (acc ++ [v]), rest2)
      | _ => none
    | none => none

def parseMembers : Nat → List Char → List (String × Json) → Option (Json × List Char)
  | 0, _, _ => none
  | fuel + 1, cs, acc =>
    match skipWs cs with
    | '"' :: rest =>
      match parseStringBody rest with
      | some (key, rest2) =>
        match skipWs rest2 with
        | ':' :: rest3 =>
          match parseValue fuel rest3 with
          | some (v, rest4) =>
            match skipWs rest4 with
            | ',' :: rest5 => parseMembers fuel rest5 (acc ++ [(⟨key⟩, v)])
            | '}' :: rest5 => some (.obj (acc ++ [(⟨key⟩, v)]), rest5)
            | _ => none
          | none => none
        | _ => none
      | none => none
    | _ => none
end

/-- Model of `serde_json::from_str`: parse one JSON value and require only
whitespace after it. -/
def from_str (jsonText : String) : Option Json :=
  match parseValue (2 * jsonText.data.length + 2) jsonText.data with
  | some (v, rest) => if (skipWs rest).isEmpty then some v else none
  | none => none

/-- Embedding of `process_json_input` (parse.rs): decode the document and
search it from an empty path; a decode failure is reported and yields
`none` — the search is never invoked for that document. -/
def process_json_input (json_input_raw : String) (field_path_parts : List String)
    (field_name : String) (ctx : SearchContext) : Option (List String) :=
  match from_str json_input_raw with
  | some json_value =>
    search_json_value json_value field_path_parts field_name [] ctx
  | none => none

/-! ## Concrete instances used to exercise the theorems -/

/-- A regex-engine stand-in that matches every string. -/
def matchAnything : String → Bool := fun _ => true

/-- A regex search context with the default separator. -/
def ctxPlain : SearchContext :=
  ⟨"test", matchAnything, false, false, ".", false⟩

/-- A regex-engine stand-in for a pattern anchored on a leading double
quote: it accepts exactly the strings whose first character is a quote. -/
def matchLeadingQuote : String → Bool :=
  fun t => decide (t.data.head? = some '"')

/-- A regex search context whose pattern requires a leading quote. -/
def ctxQuoteAnchored : SearchContext :=
  ⟨"q", matchLeadingQuote, false, false, ".", false⟩

/-! ## Lemmas -/

theorem listIsPre_iff : ∀ p s : List Char, listIsPre p s = true ↔ ∃ t, s = p ++ t := by
  intro p
  induction p with
  | nil => intro s; simp [listIsPre]
  | cons a p ih =>
    intro s
    cases s with
    | nil => simp [listIsPre]
    | cons b t =>
      simp only [listIsPre, Bool.and_eq_true, beq_iff_eq, ih, List.cons_append,
        List.cons.injEq]
      constructor
      · rintro ⟨rfl, u, rfl⟩; exact ⟨u, rfl, rfl⟩
      · rintro ⟨u, rfl, rfl⟩; exact ⟨rfl, u, rfl⟩

theorem pathScan_iff : ∀ cur spec : List String, pathScan cur spec = true ↔ List.Sublist spec cur := by
  intro cur
  induction cur with
  | nil =>
    intro spec
    cases spec with
    | nil => simp [pathScan]
    | cons s r => simp [pathScan]
  | cons c cur ih =>
    intro spec
    cases spec with
    | nil => simp [pathScan]
    | cons s r =>
      by_cases h : c = s
      · subst h
        simp [pathScan, ih, List.cons_sublist_cons]
      · simp only [pathScan, if_neg h, ih]
        constructor
        · exact fun h' => h'.cons c
        · intro h'
          cases h' with
          | cons _ h'' => exact h''
          | cons₂ => exact absurd rfl h

theorem occursAtB_iff (s pat : List Char) (i : Nat) :
    occursAtB s pat i = true ↔ occursAt s pat i := by
  simp [occursAtB, listIsPre_iff, occursAt]

theorem occursAt_bound {s pat : List Char} {i : Nat} (h : occursAt s pat i) :
    i ≤ s.length := by
  obtain ⟨h1, -⟩ := h
  omega

theorem findLastAux_eq_some (s pat : List Char) :
    ∀ n i, findLastAux s pat n = some i ↔
      (occursAtB s pat i = true ∧ i ≤ n ∧
        ∀ j, j ≤ n → occursAtB s pat j = true → j ≤ i) := by
  intro n
  induction n with
  | zero =>
    intro i
    cases h : occursAtB s pat 0 with
    | true =>
      simp only [findLastAux, h, if_true, Option.some.injEq]
      constructor
      · rintro rfl
        exact ⟨h, Nat.le_refl 0, fun j hj _ => hj⟩
      · rintro ⟨-, hle, -⟩
        omega
    | false =>
      simp only [findLastAux, h, Bool.false_eq_true, if_false, reduceCtorEq,
        false_iff, not_and]
      intro hB hle
      have : i = 0 := by omega
      subst this
      simp [h] at hB
  | succ n ih =>
    intro i
    cases h : occursAtB s pat (n + 1) with
    | true =>
      simp only [findLastAux, h, if_true, Option.some.injEq]
      constructor
      · rintro rfl
        exact ⟨h, Nat.le_refl _, fun j hj _ => hj⟩
      · rintro ⟨hB, hle, hmax⟩
        have := hmax (n + 1) (Nat.le_refl _) h
        omega
    | false =>
      simp only [findLastAux, h, Bool.false_eq_true, if_false, ih]
      constructor
      · rintro ⟨hB, hle, hmax⟩
        refine ⟨hB, by omega, fun j hj hj2 => ?_⟩
        rcases Nat.lt_or_ge j (n + 1) with hlt | hge
        · exact hmax j (by omega) hj2
        · have : j = n + 1 := by omega
          subst this
          simp [h] at hj2
      · rintro ⟨hB, hle, hmax⟩
        have hne : i ≠ n + 1 := by
          rintro rfl
          simp [h] at hB
        exact ⟨hB, by omega, fun j hj hj2 => hmax j (by omega) hj2⟩

theorem findLastAux_eq_none (s pat : List Char) :
    ∀ n, findLastAux s pat n = none ↔
      ∀ j, j ≤ n → occursAtB s pat j = false := by
  intro n
  induction n with
  | zero =>
    cases h : occursAtB s pat 0 with
    | true =>
      simp only [findLastAux, h, if_true, reduceCtorEq, false_iff, not_forall]
      exact ⟨0, Nat.le_refl 0, by simp [h]⟩
    | false =>
      simp only [findLastAux, h, Bool.false_eq_true, if_false, true_iff]
      intro j hj
      have : j = 0 := by omega
      subst this
      exact h
  | succ n ih =>
    cases h : occursAtB s pat (n + 1) with
    | true =>
      simp only [findLastAux, h, if_true, reduceCtorEq, false_iff, not_forall]
      exact ⟨n + 1, Nat.le_refl _, by simp [h]⟩
    | false =>
      simp only [findLastAux, h, Bool.false_eq_true, if_false, ih]
      constructor
      · intro hall j hj
        rcases Nat.lt_or_ge j (n + 1) with hlt | hge
        · exact hall j (by omega)
        · have : j = n + 1 := by omega
          subst this
          exact h
      · intro hall j hj
        exact hall j (by omega)

theorem findLastIdx_eq_some (s pat : List Char) (i : Nat) :
    findLastIdx s pat = some i ↔
      (occursAt s pat i ∧ ∀ j, occursAt s pat j → j ≤ i) := by
  rw [findLastIdx, findLastAux_eq_some]
  constructor
  · rintro ⟨hB, hle, hmax⟩
    refine ⟨(occursAtB_iff s pat i).mp hB, fun j hj => ?_⟩
    exact hmax j (occursAt_bound hj) ((occursAtB_iff s pat j).mpr hj)
  · rintro ⟨hocc, hmax⟩
    refine ⟨(occursAtB_iff s pat i).mpr hocc, occursAt_bound hocc, fun j _ hj2 => ?_⟩
    exact hmax j ((occursAtB_iff s pat j).mp hj2)

theorem findLastIdx_eq_none (s pat : List Char) :
    findLastIdx s pat = none ↔ ∀ j, ¬ occursAt s pat j := by
  rw [findLastIdx, findLastAux_eq_none]
  constructor
  · intro hall j hj
    have hB := (occursAtB_iff s pat j).mpr hj
    have := hall j (occursAt_bound hj)
    simp [this] at hB
  · intro hall j _
    cases hB : occursAtB s pat j with
    | false => rfl
    | true => exact absurd ((occursAtB_iff s pat j).mp hB) (hall j)

theorem findFrom_some (pat : List Char) :
    ∀ s i, findFrom pat s = some i →
      (∃ t, s.drop i = pat ++ t) ∧ i + pat.length ≤ s.length := by
  intro s
  induction s with
  | nil =>
    intro i h
    cases hp : listIsPre pat [] with
    | true =>
      simp only [findFrom, hp, if_true, Option.some.injEq] at h
      subst h
      obtain ⟨t, ht⟩ := (listIsPre_iff pat []).mp hp
      refine ⟨⟨t, ht⟩, ?_⟩
      have := congrArg List.length ht
      simp only [List.length_nil, List.length_append] at this ⊢
      omega
    | false => simp [findFrom, hp] at h
  | cons c rest ih =>
    intro i h
    cases hp : listIsPre pat (c :: rest) with
    | true =>
      simp only [findFrom, hp, if_true, Option.some.injEq] at h
      subst h
      obtain ⟨t, ht⟩ := (listIsPre_iff pat (c :: rest)).mp hp
      refine ⟨⟨t, ht⟩, ?_⟩
      have := congrArg List.length ht
      simp only [List.length_cons, List.length_append] at this ⊢
      omega
    | false =>
      cases hfr : findFrom pat rest with
      | none => simp [findFrom, hp, hfr] at h
      | some i' =>
        simp only [findFrom, hp, Bool.false_eq_true, if_false, hfr,
          Option.map_some', Option.some.injEq] at h
        subst h
        obtain ⟨⟨t, ht⟩, hlen⟩ := ih i' hfr
        refine ⟨⟨t, ?_⟩, ?_⟩
        · simpa using ht
        · simp only [List.length_cons]
          omega

theorem findFrom_decomp {pat s : List Char} {i : Nat}
    (h : findFrom pat s = some i) :
    s = s.take i ++ pat ++ s.drop (i + pat.length) := by
  obtain ⟨⟨t, ht⟩, hlen⟩ := findFrom_some pat s i h
  have ht2 : s.drop (i + pat.length) = t := by
    have : (s.drop i).drop pat.length = (pat ++ t).drop pat.length := by rw [ht]
    simpa [List.drop_drop, Nat.add_comm] using this
  calc s = s.take i ++ s.drop i := (List.take_append_drop i s).symm
    _ = s.take i ++ (pat ++ t) := by rw [ht]
    _ = s.take i ++ pat ++ s.drop (i + pat.length) := by rw [ht2, List.append_assoc]

theorem splitNE_ne_nil (sep : List Char) (fuel : Nat) (s : List Char) :
    splitNE sep fuel s ≠ [] := by
  cases fuel with
  | zero => simp [splitNE]
  | succ fuel =>
    cases h : findFrom sep s with
    | none => simp [splitNE, h]
    | some i => simp [splitNE, h]

theorem strJoinL_cons_of_ne_nil (sep x : List Char) (l : List (List Char))
    (h : l ≠ []) : strJoinL sep (x :: l) = x ++ sep ++ strJoinL sep l := by
  cases l with
  | nil => exact absurd rfl h
  | cons y ys => rfl

theorem joinL_splitNE (sep : List Char) (hsep : sep ≠ []) :
    ∀ fuel s, s.length < fuel → strJoinL sep (splitNE sep fuel s) = s := by
  intro fuel
  induction fuel with
  | zero => intro s hs; omega
  | succ fuel ih =>
    intro s hs
    cases hf : findFrom sep s with
    | none => simp [splitNE, hf, strJoinL]
    | some i =>
      have hbound := (findFrom_some sep s i hf).2
      have hseplen : 1 ≤ sep.length := by
        cases sep with
        | nil => exact absurd rfl hsep
        | cons a b => simp
      simp only [splitNE, hf]
      rw [strJoinL_cons_of_ne_nil sep _ _ (splitNE_ne_nil sep fuel _)]
      rw [ih (s.drop (i + sep.length)) (by simp; omega)]
      exact (findFrom_decomp hf).symm

theorem strJoin_splitSep (p sep : String) (hsep : sep.data ≠ []) :
    strJoin sep (splitSep p sep) = p := by
  apply String.ext
  have hne : sep.data.isEmpty = false := by
    cases hd : sep.data with
    | nil => exact absurd hd hsep
    | cons a b => simp
  simp only [strJoin, splitSep, hne, Bool.false_eq_true, if_false, List.map_map]
  have hmap : (String.data ∘ fun l : List Char => (⟨l⟩ : String)) = id := by
    funext l
    rfl
  rw [hmap, List.map_id]
  exact joinL_splitNE sep.data hsep (p.data.length + 1) p.data (by omega)

theorem str_mk_eq_empty_iff (l : List Char) : (⟨l⟩ : String) = "" ↔ l = [] := by
  constructor
  · intro h
    have := congrArg String.data h
    simpa using this
  · rintro rfl
    rfl

theorem head_dropWhile_not (p : Char → Bool) :
    ∀ (l : List Char) (c : Char), (l.dropWhile p).head? = some c → p c = false := by
  intro l
  induction l with
  | nil => intro c h; simp [List.dropWhile] at h
  | cons a t ih =>
    intro c h
    cases hp : p a with
    | true =>
      rw [List.dropWhile_cons_of_pos hp] at h
      exact ih c h
    | false =>
      rw [List.dropWhile_cons_of_neg (by simp [hp])] at h
      simp only [List.head?_cons, Option.some.injEq] at h
      subst h
      exact hp

theorem trimQuotes_head_getLast (s : String) :
    (trimQuotes s).data.head? ≠ some '"' ∧ (trimQuotes s).data.getLast? ≠ some '"' := by
  constructor
  · intro h
    simp only [trimQuotes, List.head?_reverse] at h
    set A := s.data.dropWhile (· == '"') with hA
    set B := A.reverse.dropWhile (· == '"') with hB
    obtain ⟨u, hu⟩ := List.dropWhile_suffix (l := A.reverse) (· == '"')
    cases hBnil : B with
    | nil => rw [hBnil] at h; simp at h
    | cons b bs =>
      have hBlast : B.getLast? = some '"' := h
      have : A.reverse.getLast? = some '"' := by
        rw [← hu, List.getLast?_append, hBlast]
        rfl
      rw [List.getLast?_reverse] at this
      have := head_dropWhile_not (· == '"') s.data '"' this
      simp at this
  · intro h
    simp only [trimQuotes, List.getLast?_reverse] at h
    have := head_dropWhile_not (· == '"')
      (s.data.dropWhile (· == '"')).reverse '"' h
    simp at this

theorem check_object_match_single_irrel (obj : List (String × Json))
    (parts : List String) (fname : String) (cur : List String)
    (ctx : SearchContext) (b : Bool) :
    check_object_match obj parts fname cur {ctx with single := b}
      = check_object_match obj parts fname cur ctx := by
  cases ctx
  rfl

theorem check_object_match_shape (obj : List (String × Json))
    (parts : List String) (fname : String) (cur : List String)
    (ctx : SearchContext) :
    check_object_match obj parts fname cur ctx = []
    ∨ ∃ value, objGet obj fname = some value ∧
        check_object_match obj parts fname cur ctx =
          [output_string ctx (full_path cur fname ctx.field_path_separator) value] := by
  unfold check_object_match numeric_single_check
  dsimp only
  repeat' split
  all_goals first
    | exact Or.inl rfl
    | exact Or.inr ⟨_, by assumption, rfl⟩

theorem objAssemble_nonsingle (obj : List (String × Json)) (parts : List String)
    (fname : String) (cur : List String) (ctx : SearchContext)
    (results : List String) (hs : ctx.single = false) :
    objAssemble obj parts fname cur ctx results =
      (if results ++ check_object_match obj parts fname cur ctx = [] then none
       else some (results ++ check_object_match obj parts fname cur ctx)) := by
  unfold objAssemble
  rw [hs]
  cases hC : check_object_match obj parts fname cur ctx with
  | nil =>
    simp only [List.isEmpty_nil, Bool.not_false, Bool.false_and, Bool.false_eq_true,
      if_false, List.append_nil]
    cases results with
    | nil => rfl
    | cons y ys => rfl
  | cons y ys =>
    simp only [List.isEmpty_cons, Bool.not_false, Bool.false_and, Bool.false_eq_true,
      if_false, if_true]
    cases results with
    | nil => rfl
    | cons z zs => rfl

theorem search_obj_fields_nonsingle (parts : List String) (fname : String)
    (ctx : SearchContext) (hs : ctx.single = false) :
    ∀ (fields : List (String × Json)) (cur acc : List String),
      search_obj_fields fields parts fname cur ctx acc =
        .ok (acc ++ (fields.map (fun kv =>
          (search_json_value kv.2 parts fname (cur ++ [kv.1]) ctx).getD [])).flatten) := by
  intro fields
  induction fields with
  | nil => intro cur acc; simp [search_obj_fields]
  | cons kv rest ih =>
    intro cur acc
    obtain ⟨key, value⟩ := kv
    cases hv : search_json_value value parts fname (cur ++ [key]) ctx with
    | none => simp [search_obj_fields, hv, ih]
    | some rr => simp [search_obj_fields, hv, hs, ih, List.append_assoc]

theorem search_arr_items_nonsingle (parts : List String) (fname : String)
    (ctx : SearchContext) (hs : ctx.single = false) :
    ∀ (items : List Json) (cur : List String) (idx : Nat) (acc : List String),
      search_arr_items items parts fname cur ctx idx acc =
        .ok (acc ++ ((items.enumFrom idx).map (fun p =>
          (search_json_value p.2 parts fname (cur ++ [toString p.1]) ctx).getD [])).flatten) := by
  intro items
  induction items with
  | nil => intro cur idx acc; simp [search_arr_items]
  | cons item rest ih =>
    intro cur idx acc
    cases hv : search_json_value item parts fname (cur ++ [toString idx]) ctx with
    | none => simp [search_arr_items, hv, ih, List.enumFrom]
    | some rr => simp [search_arr_items, hv, hs, ih, List.enumFrom, List.append_assoc]

theorem obj_loop_single_rel (parts : List String) (fname : String)
    (ctx : SearchContext) (hs : ctx.single = false) (cur : List String) :
    ∀ (fields : List (String × Json)),
      (∀ kv, kv ∈ fields →
        (search_json_value kv.2 parts fname (cur ++ [kv.1]) {ctx with single := true}
          = Option.map (fun l => l.take 1)
              (search_json_value kv.2 parts fname (cur ++ [kv.1]) ctx))
        ∧ (∀ l, search_json_value kv.2 parts fname (cur ++ [kv.1]) ctx = some l →
            l ≠ [])) →
      ∀ accN accS : List String,
        ∃ L, search_obj_fields fields parts fname cur ctx accN = .ok (accN ++ L) ∧
          ((L = [] ∧ search_obj_fields fields parts fname cur
              {ctx with single := true} accS = .ok accS)
            ∨ (∃ x t, L = x :: t ∧
                search_obj_fields fields parts fname cur
                  {ctx with single := true} accS = .error [x])) := by
  intro fields
  induction fields with
  | nil =>
    intro _ accN accS
    exact ⟨[], by simp [search_obj_fields], Or.inl ⟨rfl, by simp [search_obj_fields]⟩⟩
  | cons kv rest ih =>
    intro IH accN accS
    obtain ⟨key, value⟩ := kv
    have IHhead := IH (key, value) (List.mem_cons_self _ _)
    have IHrest := fun kv hkv => IH kv (List.mem_cons_of_mem _ hkv)
    cases hv : search_json_value value parts fname (cur ++ [key]) ctx with
    | none =>
      have hvS : search_json_value value parts fname (cur ++ [key])
          {ctx with single := true} = none := by
        rw [IHhead.1, hv]
        rfl
      obtain ⟨L, hok, hrel⟩ := ih IHrest accN accS
      refine ⟨L, ?_, ?_⟩
      · simp only [search_obj_fields, hv]
        exact hok
      · rcases hrel with ⟨hL, hS⟩ | ⟨x, t, hL, hS⟩
        · refine Or.inl ⟨hL, ?_⟩
          simp only [search_obj_fields, hvS]
          exact hS
        · refine Or.inr ⟨x, t, hL, ?_⟩
          simp only [search_obj_fields, hvS]
          exact hS
    | some rr =>
      have hrrne : rr ≠ [] := IHhead.2 rr hv
      obtain ⟨x, t, rfl⟩ := List.exists_cons_of_ne_nil hrrne
      have hvS : search_json_value value parts fname (cur ++ [key])
          {ctx with single := true} = some [x] := by
        rw [IHhead.1, hv]
        rfl
      obtain ⟨L', hok', -⟩ := ih IHrest (accN ++ x :: t) accS
      refine ⟨x :: (t ++ L'), ?_, Or.inr ⟨x, t ++ L', rfl, ?_⟩⟩
      · simp only [search_obj_fields, hv, hs, Bool.false_eq_true, if_false]
        rw [hok']
        simp
      · simp [search_obj_fields, hvS]

theorem arr_loop_single_rel (parts : List String) (fname : String)
    (ctx : SearchContext) (hs : ctx.single = false) (cur : List String) :
    ∀ (items : List Json),
      (∀ item, item ∈ items → ∀ seg : String,
        (search_json_value item parts fname (cur ++ [seg]) {ctx with single := true}
          = Option.map (fun l => l.take 1)
              (search_json_value item parts fname (cur ++ [seg]) ctx))
        ∧ (∀ l, search_json_value item parts fname (cur ++ [seg]) ctx = some l →
            l ≠ [])) →
      ∀ (idx : Nat) (accN accS : List String),
        ∃ L, search_arr_items items parts fname cur ctx idx accN = .ok (accN ++ L) ∧
          ((L = [] ∧ search_arr_items items parts fname cur
              {ctx with single := true} idx accS = .ok accS)
            ∨ (∃ x t, L = x :: t ∧
                search_arr_items items parts fname cur
                  {ctx with single := true} idx accS = .error [x])) := by
  intro items
  induction items with
  | nil =>
    intro _ idx accN accS
    exact ⟨[], by simp [search_arr_items], Or.inl ⟨rfl, by simp [search_arr_items]⟩⟩
  | cons item rest ih =>
    intro IH idx accN accS
    have IHhead := IH item (List.mem_cons_self _ _) (toString idx)
    have IHrest := fun it hit => IH it (List.mem_cons_of_mem _ hit)
    cases hv : search_json_value item parts fname (cur ++ [toString idx]) ctx with
    | none =>
      have hvS : search_json_value item parts fname (cur ++ [toString idx])
          {ctx with single := true} = none := by
        rw [IHhead.1, hv]
        rfl
      obtain ⟨L, hok, hrel⟩ := ih IHrest (idx + 1) accN accS
      refine ⟨L, ?_, ?_⟩
      · simp only [search_arr_items, hv]
        exact hok
      · rcases hrel with ⟨hL, hS⟩ | ⟨x, t, hL, hS⟩
        · refine Or.inl ⟨hL, ?_⟩
          simp only [search_arr_items, hvS]
          exact hS
        · refine Or.inr ⟨x, t, hL, ?_⟩
          simp only [search_arr_items, hvS]
          exact hS
    | some rr =>
      have hrrne : rr ≠ [] := IHhead.2 rr hv
      obtain ⟨x, t, rfl⟩ := List.exists_cons_of_ne_nil hrrne
      have hvS : search_json_value item parts fname (cur ++ [toString idx])
          {ctx with single := true} = some [x] := by
        rw [IHhead.1, hv]
        rfl
      obtain ⟨L', hok', -⟩ := ih IHrest (idx + 1) (accN ++ x :: t) accS
      refine ⟨x :: (t ++ L'), ?_, Or.inr ⟨x, t ++ L', rfl, ?_⟩⟩
      · simp only [search_arr_items, hv, hs, Bool.false_eq_true, if_false]
        rw [hok']
        simp
      · simp [search_arr_items, hvS]

theorem single_rel (parts : List String) (fname : String) (ctx : SearchContext)
    (hs : ctx.single = false) :
    ∀ (n : Nat) (v : Json), sizeOf v ≤ n → ∀ cur : List String,
      (search_json_value v parts fname cur {ctx with single := true}
        = Option.map (fun l => l.take 1) (search_json_value v parts fname cur ctx))
      ∧ (∀ l, search_json_value v parts fname cur ctx = some l → l ≠ []) := by
  intro n
  induction n with
  | zero =>
    intro v hv
    exact absurd hv (by cases v <;> simp)
  | succ n ih =>
    intro v hv cur
    cases v with
    | null => exact ⟨by simp [search_json_value], by simp [search_json_value]⟩
    | bool b => exact ⟨by simp [search_json_value], by simp [search_json_value]⟩
    | num q => exact ⟨by simp [search_json_value], by simp [search_json_value]⟩
    | str s => exact ⟨by simp [search_json_value], by simp [search_json_value]⟩
    | obj fields =>
      have IH : ∀ kv, kv ∈ fields →
          (search_json_value kv.2 parts fname (cur ++ [kv.1]) {ctx with single := true}
            = Option.map (fun l => l.take 1)
                (search_json_value kv.2 parts fname (cur ++ [kv.1]) ctx))
          ∧ (∀ l, search_json_value kv.2 parts fname (cur ++ [kv.1]) ctx = some l →
              l ≠ []) := by
        intro kv hkv
        have hsz : sizeOf kv.2 ≤ n := by
          have h1 := List.sizeOf_lt_of_mem hkv
          have h2 : sizeOf (Json.obj fields) = 1 + sizeOf fields := by simp
          obtain ⟨a, b⟩ := kv
          simp only [Prod.mk.sizeOf_spec] at h1
          simp only at *
          omega
        exact ih kv.2 hsz (cur ++ [kv.1])
      obtain ⟨L, hok, hrel⟩ := obj_loop_single_rel parts fname ctx hs cur fields IH [] []
      have hN : search_json_value (.obj fields) parts fname cur ctx
          = objAssemble fields parts fname cur ctx L := by
        simp only [search_json_value, hok]
        simp
      rcases hrel with ⟨hL, hS⟩ | ⟨x, t, hL, hS⟩
      · subst hL
        have hSv : search_json_value (.obj fields) parts fname cur
            {ctx with single := true}
            = objAssemble fields parts fname cur {ctx with single := true} [] := by
          simp only [search_json_value, hS]
        rcases check_object_match_shape fields parts fname cur ctx with hC | ⟨value, -, hC⟩
        · have hCS : check_object_match fields parts fname cur
              {ctx with single := true} = [] := by
            rw [check_object_match_single_irrel, hC]
          constructor
          · rw [hN, hSv, objAssemble_nonsingle fields parts fname cur ctx [] hs]
            simp [objAssemble, hC, hCS]
          · intro l hl
            rw [hN, objAssemble_nonsingle fields parts fname cur ctx [] hs, hC] at hl
            simp at hl
        · have hCS : check_object_match fields parts fname cur
              {ctx with single := true}
              = [output_string ctx (full_path cur fname ctx.field_path_separator) value] := by
            rw [check_object_match_single_irrel, hC]
          constructor
          · rw [hN, hSv, objAssemble_nonsingle fields parts fname cur ctx [] hs]
            simp [objAssemble, hC, hCS]
          · intro l hl
            rw [hN, objAssemble_nonsingle fields parts fname cur ctx [] hs, hC] at hl
            simp at hl
            obtain ⟨-, rfl⟩ := hl
            simp
      · subst hL
        have hSv : search_json_value (.obj fields) parts fname cur
            {ctx with single := true} = some [x] := by
          simp only [search_json_value, hS]
        have hNv : search_json_value (.obj fields) parts fname cur ctx
            = some (x :: (t ++ check_object_match fields parts fname cur ctx)) := by
          rw [hN, objAssemble_nonsingle fields parts fname cur ctx _ hs]
          simp
        constructor
        · rw [hSv, hNv]
          rfl
        · intro l hl
          rw [hNv] at hl
          simp only [Option.some.injEq] at hl
          subst hl
          simp
    | arr items =>
      have IH : ∀ item, item ∈ items → ∀ seg : String,
          (search_json_value item parts fname (cur ++ [seg]) {ctx with single := true}
            = Option.map (fun l => l.take 1)
                (search_json_value item parts fname (cur ++ [seg]) ctx))
          ∧ (∀ l, search_json_value item parts fname (cur ++ [seg]) ctx = some l →
              l ≠ []) := by
        intro item hit seg
        have hsz : sizeOf item ≤ n := by
          have h1 := List.sizeOf_lt_of_mem hit
          have h2 : sizeOf (Json.arr items) = 1 + sizeOf items := by simp
          simp only at *
          omega
        exact ih item hsz (cur ++ [seg])
      obtain ⟨L, hok, hrel⟩ := arr_loop_single_rel parts fname ctx hs cur items IH 0 [] []
      have hN : search_json_value (.arr items) parts fname cur ctx
          = (if !L.isEmpty then some L else none) := by
        simp only [search_json_value, hok]
        simp
      rcases hrel with ⟨hL, hS⟩ | ⟨x, t, hL, hS⟩
      · subst hL
        have hSv : search_json_value (.arr items) parts fname cur
            {ctx with single := true} = none := by
          simp only [search_json_value, hS]
          simp
        constructor
        · rw [hN, hSv]
          simp
        · intro l hl
          rw [hN] at hl
          simp at hl
      · subst hL
        have hSv : search_json_value (.arr items) parts fname cur
            {ctx with single := true} = some [x] := by
          simp only [search_json_value, hS]
        constructor
        · rw [hN, hSv]
          rfl
        · intro l hl
          rw [hN] at hl
          simp only [List.isEmpty_cons, Bool.not_false, if_true, Option.some.injEq] at hl
          subst hl
          simp

theorem objAssemble_cases (obj : List (String × Json)) (parts : List String)
    (fname : String) (cur : List String) (ctx : SearchContext)
    (results res : List String)
    (h : objAssemble obj parts fname cur ctx results = some res) :
    res = check_object_match obj parts fname cur ctx
    ∨ res = results ++ check_object_match obj parts fname cur ctx
    ∨ res = results := by
  unfold objAssemble at h
  by_cases h1 : (ctx.single
      && !(check_object_match obj parts fname cur ctx).isEmpty) = true
  · rw [if_pos h1] at h
    exact Or.inl (Option.some.inj h).symm
  · rw [if_neg h1] at h
    dsimp only at h
    by_cases h2 : (!(check_object_match obj parts fname cur ctx).isEmpty) = true
    · rw [if_pos h2] at h
      by_cases h3 : (!(results ++ check_object_match obj parts fname cur ctx).isEmpty)
          = true
      · rw [if_pos h3] at h
        exact Or.inr (Or.inl (Option.some.inj h).symm)
      · rw [if_neg h3] at h
        simp at h
    · rw [if_neg h2] at h
      by_cases h3 : (!results.isEmpty) = true
      · rw [if_pos h3] at h
        exact Or.inr (Or.inr (Option.some.inj h).symm)
      · rw [if_neg h3] at h
        simp at h

theorem obj_loop_shape (parts : List String) (fname : String) (ctx : SearchContext)
    (cur : List String) :
    ∀ (fields : List (String × Json)),
      (∀ kv, kv ∈ fields → ∀ cur' res,
        search_json_value kv.2 parts fname cur' ctx = some res →
        ∀ r ∈ res, ∃ segs value,
          r = output_string ctx (full_path segs fname ctx.field_path_separator) value) →
      ∀ acc,
        (∀ L, search_obj_fields fields parts fname cur ctx acc = .ok L →
          ∀ r ∈ L, r ∈ acc ∨ ∃ segs value,
            r = output_string ctx (full_path segs fname ctx.field_path_separator) value)
        ∧ (∀ rr, search_obj_fields fields parts fname cur ctx acc = .error rr →
          ∀ r ∈ rr, ∃ segs value,
            r = output_string ctx (full_path segs fname ctx.field_path_separator) value) := by
  intro fields
  induction fields with
  | nil =>
    intro _ acc
    constructor
    · intro L hL r hr
      simp only [search_obj_fields, Except.ok.injEq] at hL
      subst hL
      exact Or.inl hr
    · intro rr hrr
      simp [search_obj_fields] at hrr
  | cons kv rest ih =>
    intro IH acc
    obtain ⟨key, value⟩ := kv
    have IHhead := IH (key, value) (List.mem_cons_self _ _)
    have IHrest := fun kv hkv => IH kv (List.mem_cons_of_mem _ hkv)
    cases hv : search_json_value value parts fname (cur ++ [key]) ctx with
    | none =>
      constructor
      · intro L hL
        simp only [search_obj_fields, hv] at hL
        exact (ih IHrest acc).1 L hL
      · intro rr hrr
        simp only [search_obj_fields, hv] at hrr
        exact (ih IHrest acc).2 rr hrr
    | some rr0 =>
      have hshape := IHhead (cur ++ [key]) rr0 hv
      cases hsing : ctx.single with
      | true =>
        constructor
        · intro L hL
          simp only [search_obj_fields, hv, hsing, if_true] at hL
          simp at hL
        · intro rr hrr
          simp only [search_obj_fields, hv, hsing, if_true, Except.error.injEq] at hrr
          subst hrr
          exact hshape
      | false =>
        constructor
        · intro L hL r hr
          simp only [search_obj_fields, hv, hsing, Bool.false_eq_true, if_false] at hL
          rcases (ih IHrest (acc ++ rr0)).1 L hL r hr with hmem | hsh
          · rcases List.mem_append.mp hmem with h1 | h2
            · exact Or.inl h1
            · exact Or.inr (hshape r h2)
          · exact Or.inr hsh
        · intro rr hrr
          simp only [search_obj_fields, hv, hsing, Bool.false_eq_true, if_false] at hrr
          exact (ih IHrest (acc ++ rr0)).2 rr hrr

theorem arr_loop_shape (parts : List String) (fname : String) (ctx : SearchContext)
    (cur : List String) :
    ∀ (items : List Json),
      (∀ item, item ∈ items → ∀ cur' res,
        search_json_value item parts fname cur' ctx = some res →
        ∀ r ∈ res, ∃ segs value,
          r = output_string ctx (full_path segs fname ctx.field_path_separator) value) →
      ∀ idx acc,
        (∀ L, search_arr_items items parts fname cur ctx idx acc = .ok L →
          ∀ r ∈ L, r ∈ acc ∨ ∃ segs value,
            r = output_string ctx (full_path segs fname ctx.field_path_separator) value)
        ∧ (∀ rr, search_arr_items items parts fname cur ctx idx acc = .error rr →
          ∀ r ∈ rr, ∃ segs value,
            r = output_string ctx (full_path segs fname ctx.field_path_separator) value) := by
  intro items
  induction items with
  | nil =>
    intro _ idx acc
    constructor
    · intro L hL r hr
      simp only [search_arr_items, Except.ok.injEq] at hL
      subst hL
      exact Or.inl hr
    · intro rr hrr
      simp [search_arr_items] at hrr
  | cons item rest ih =>
    intro IH idx acc
    have IHhead := IH item (List.mem_cons_self _ _)
    have IHrest := fun it hit => IH it (List.mem_cons_of_mem _ hit)
    cases hv : search_json_value item parts fname (cur ++ [toString idx]) ctx with
    | none =>
      constructor
      · intro L hL
        simp only [search_arr_items, hv] at hL
        exact (ih IHrest (idx + 1) acc).1 L hL
      · intro rr hrr
        simp only [search_arr_items, hv] at hrr
        exact (ih IHrest (idx + 1) acc).2 rr hrr
    | some rr0 =>
      have hshape := IHhead (cur ++ [toString idx]) rr0 hv
      cases hsing : ctx.single with
      | true =>
        constructor
        · intro L hL
          simp only [search_arr_items, hv, hsing, if_true] at hL
          simp at hL
        · intro rr hrr
          simp only [search_arr_items, hv, hsing, if_true, Except.error.injEq] at hrr
          subst hrr
          exact hshape
      | false =>
        constructor
        · intro L hL r hr
          simp only [search_arr_items, hv, hsing, Bool.false_eq_true, if_false] at hL
          rcases (ih IHrest (idx + 1) (acc ++ rr0)).1 L hL r hr with hmem | hsh
          · rcases List.mem_append.mp hmem with h1 | h2
            · exact Or.inl h1
            · exact Or.inr (hshape r h2)
          · exact Or.inr hsh
        · intro rr hrr
          simp only [search_arr_items, hv, hsing, Bool.false_eq_true, if_false] at hrr
          exact (ih IHrest (idx + 1) (acc ++ rr0)).2 rr hrr

theorem results_shape (parts : List String) (fname : String) (ctx : SearchContext) :
    ∀ (n : Nat) (v : Json), sizeOf v ≤ n → ∀ cur res,
      search_json_value v parts fname cur ctx = some res →
      ∀ r ∈ res, ∃ segs value,
        r = output_string ctx (full_path segs fname ctx.field_path_separator) value := by
  intro n
  induction n with
  | zero =>
    intro v hv
    exact absurd hv (by cases v <;> simp)
  | succ n ih =>
    intro v hv cur res hres r hr
    cases v with
    | null => simp [search_json_value] at hres
    | bool b => simp [search_json_value] at hres
    | num q => simp [search_json_value] at hres
    | str s => simp [search_json_value] at hres
    | obj fields =>
      have IH : ∀ kv, kv ∈ fields → ∀ cur' res',
          search_json_value kv.2 parts fname cur' ctx = some res' →
          ∀ r' ∈ res', ∃ segs value,
            r' = output_string ctx (full_path segs fname ctx.field_path_separator) value := by
        intro kv hkv cur' res' h'
        have hsz : sizeOf kv.2 ≤ n := by
          have h1 := List.sizeOf_lt_of_mem hkv
          have h2 : sizeOf (Json.obj fields) = 1 + sizeOf fields := by simp
          obtain ⟨a, b⟩ := kv
          simp only [Prod.mk.sizeOf_spec] at h1
          simp only at *
          omega
        exact ih kv.2 hsz cur' res' h'
      cases hloop : search_obj_fields fields parts fname cur ctx [] with
      | error rr =>
        have hsv : search_json_value (.obj fields) parts fname cur ctx = some rr := by
          simp only [search_json_value, hloop]
        rw [hsv] at hres
        obtain rfl := Option.some.inj hres
        exact (obj_loop_shape parts fname ctx cur fields IH []).2 rr hloop r hr
      | ok results =>
        have hsv : search_json_value (.obj fields) parts fname cur ctx
            = objAssemble fields parts fname cur ctx results := by
          simp only [search_json_value, hloop]
        rw [hsv] at hres
        have hcheck : ∀ r' ∈ check_object_match fields parts fname cur ctx,
            ∃ segs value,
              r' = output_string ctx (full_path segs fname ctx.field_path_separator) value := by
          intro r' hr'
          rcases check_object_match_shape fields parts fname cur ctx with hC | ⟨value, -, hC⟩
          · rw [hC] at hr'
            simp at hr'
          · rw [hC] at hr'
            simp only [List.mem_singleton] at hr'
            exact ⟨cur, value, hr'⟩
        have hresults : ∀ r' ∈ results, ∃ segs value,
            r' = output_string ctx (full_path segs fname ctx.field_path_separator) value := by
          intro r' hr'
          rcases (obj_loop_shape parts fname ctx cur fields IH []).1 results hloop r' hr'
            with hmem | hsh
          · simp at hmem
          · exact hsh
        rcases objAssemble_cases fields parts fname cur ctx results res hres
          with rfl | rfl | rfl
        · exact hcheck r hr
        · rcases List.mem_append.mp hr with h1 | h2
          · exact hresults r h1
          · exact hcheck r h2
        · exact hresults r hr
    | arr items =>
      have IH : ∀ item, item ∈ items → ∀ cur' res',
          search_json_value item parts fname cur' ctx = some res' →
          ∀ r' ∈ res', ∃ segs value,
            r' = output_string ctx (full_path segs fname ctx.field_path_separator) value := by
        intro item hit cur' res' h'
        have hsz : sizeOf item ≤ n := by
          have h1 := List.sizeOf_lt_of_mem hit
          have h2 : sizeOf (Json.arr items) = 1 + sizeOf items := by simp
          simp only at *
          omega
        exact ih item hsz cur' res' h'
      cases hloop : search_arr_items items parts fname cur ctx 0 [] with
      | error rr =>
        have hsv : search_json_value (.arr items) parts fname cur ctx = some rr := by
          simp only [search_json_value, hloop]
        rw [hsv] at hres
        obtain rfl := Option.some.inj hres
        exact (arr_loop_shape parts fname ctx cur items IH 0 []).2 rr hloop r hr
      | ok results =>
        have hsv : search_json_value (.arr items) parts fname cur ctx
            = (if !results.isEmpty then some results else none) := by
          simp only [search_json_value, hloop]
        rw [hsv] at hres
        by_cases hE : (!results.isEmpty) = true
        · rw [if_pos hE] at hres
          obtain rfl := Option.some.inj hres
          rcases (arr_loop_shape parts fname ctx cur items IH 0 []).1 results hloop r hr
            with hmem | hsh
          · simp at hmem
          · exact hsh
        · rw [if_neg hE] at hres
          simp at hres

theorem strJoinL_append_single_ne (sep y : List Char) :
    ∀ xs : List (List Char), xs ≠ [] →
      strJoinL sep (xs ++ [y]) = strJoinL sep xs ++ sep ++ y := by
  intro xs
  induction xs with
  | nil => intro h; exact absurd rfl h
  | cons x xs ih =>
    intro _
    cases xs with
    | nil => rfl
    | cons z zs =>
      have h1 : strJoinL sep ((x :: z :: zs) ++ [y])
          = x ++ sep ++ strJoinL sep ((z :: zs) ++ [y]) := rfl
      rw [h1, ih (by simp)]
      have h2 : strJoinL sep (x :: z :: zs) = x ++ sep ++ strJoinL sep (z :: zs) := rfl
      rw [h2]
      simp [List.append_assoc]

theorem full_path_eq_join (cur : List String) (fname sep : String) :
    full_path cur fname sep = strJoin sep (cur ++ [fname]) := by
  cases cur with
  | nil =>
    apply String.ext
    simp [full_path, strJoin, strJoinL]
  | cons c cs =>
    apply String.ext
    simp only [full_path, List.isEmpty_cons, Bool.false_eq_true, if_false,
      String.data_append, strJoin, List.cons_append, List.map_append,
      List.map_cons, List.map_nil]
    rw [show c.data :: (List.map String.data cs ++ [fname.data])
        = (c.data :: List.map String.data cs) ++ [fname.data] from rfl]
    rw [strJoinL_append_single_ne sep.data fname.data _ (by simp)]

theorem strJoin_field_name_data (sep : String) (segs : List String) (fname : String) :
    ∃ pre, (strJoin sep (segs ++ [fname])).data = pre ++ fname.data := by
  cases segs with
  | nil => exact ⟨[], rfl⟩
  | cons c cs =>
    refine ⟨strJoinL sep.data (c.data :: List.map String.data cs) ++ sep.data, ?_⟩
    simp only [strJoin, List.cons_append, List.map_cons, List.map_append, List.map_nil]
    rw [show c.data :: (List.map String.data cs ++ [fname.data])
        = (c.data :: List.map String.data cs) ++ [fname.data] from rfl]
    rw [strJoinL_append_single_ne sep.data fname.data _ (by simp)]

/-! ## Claim theorems -/

/-- Claim C1: the path check of `check_object_match` succeeds exactly when
the field-path specification occurs, in order but not necessarily
contiguously, as a subsequence of the accumulated path; an empty
specification succeeds everywhere, and a failing path check empties the
field check. -/
theorem path_matcher_subsequence (field_path_parts current_path : List String)
    (obj : List (String × Json)) (field_name : String) (ctx : SearchContext) :
    (check_path_matches field_path_parts current_path = true ↔
      List.Sublist field_path_parts current_path)
    ∧ check_path_matches [] current_path = true
    ∧ (¬ List.Sublist field_path_parts current_path →
        check_object_match obj field_path_parts field_name current_path ctx = []) := by
  have base : ∀ parts cur : List String,
      check_path_matches parts cur = true ↔ List.Sublist parts cur := by
    intro parts cur
    cases parts with
    | nil => simp [check_path_matches]
    | cons p ps => simp [check_path_matches, pathScan_iff]
  refine ⟨base _ _, by simp [check_path_matches], fun h => ?_⟩
  have hfalse : check_path_matches field_path_parts current_path = false := by
    cases hb : check_path_matches field_path_parts current_path with
    | false => rfl
    | true => exact absurd ((base _ _).mp hb) h
  simp [check_object_match, hfalse]

theorem parse_search_path_eq_none (s sep : String)
    (h : findLastIdx s.data sep.data = none) :
    parse_search_path s sep =
      if s = "" then .error malformedPathMsg else .ok ([], s) := by
  simp only [parse_search_path, rsplitOnce, h]

theorem parse_search_path_eq_some (s sep : String) (i : Nat)
    (h : findLastIdx s.data sep.data = some i) :
    parse_search_path s sep =
      (if (⟨s.data.drop (i + sep.data.length)⟩ : String) = ""
       then .error malformedPathMsg
       else .ok (splitSep ⟨s.data.take i⟩ sep,
            ⟨s.data.drop (i + sep.data.length)⟩)) := by
  simp only [parse_search_path, rsplitOnce, h]

/-- Claim C2: for any document and fixed query, single-result mode returns
the one-element prefix of the non-single result list: at most one result,
identical to the first element of the non-single list when that list is
non-empty (the non-single search never returns an empty `some`), and
nothing when the non-single search finds nothing. -/
theorem single_mode_takes_first_result (v : Json) (parts : List String)
    (fname : String) (cur : List String) (ctx : SearchContext) :
    (search_json_value v parts fname cur {ctx with single := true}
      = Option.map (fun l => l.take 1)
          (search_json_value v parts fname cur {ctx with single := false}))
    ∧ (∀ l, search_json_value v parts fname cur {ctx with single := true} = some l →
        l.length ≤ 1)
    ∧ (∀ l, search_json_value v parts fname cur {ctx with single := false} = some l →
        l ≠ []) := by
  have hctx2 : ({({ctx with single := false} : SearchContext) with single := true}
      : SearchContext) = {ctx with single := true} := by
    cases ctx
    rfl
  have base := single_rel parts fname {ctx with single := false} rfl
    (sizeOf v) v (Nat.le_refl _) cur
  rw [hctx2] at base
  refine ⟨base.1, ?_, base.2⟩
  intro l hl
  rw [base.1] at hl
  obtain ⟨l', -, rfl⟩ := Option.map_eq_some'.mp hl
  simp [List.length_take]

/-- Claim C3: in non-single mode an object node's result list is exactly
the concatenation of its children's results, in key iteration order,
followed by the node's own field-check result; an array node concatenates
its elements' results in index order.  `none` stands for the empty result
collection. -/
theorem children_results_before_own (fields : List (String × Json))
    (items : List Json) (parts : List String) (fname : String)
    (cur : List String) (ctx : SearchContext) :
    (search_json_value (.obj fields) parts fname cur {ctx with single := false} =
      (let childResults := (fields.map (fun kv =>
          (search_json_value kv.2 parts fname (cur ++ [kv.1])
            {ctx with single := false}).getD [])).flatten
       let own := check_object_match fields parts fname cur {ctx with single := false}
       if childResults ++ own = [] then none else some (childResults ++ own)))
    ∧ (search_json_value (.arr items) parts fname cur {ctx with single := false} =
      (let childResults := ((items.enumFrom 0).map (fun p =>
          (search_json_value p.2 parts fname (cur ++ [toString p.1])
            {ctx with single := false}).getD [])).flatten
       if childResults = [] then none else some childResults)) := by
  constructor
  · rw [show search_json_value (.obj fields) parts fname cur {ctx with single := false}
        = (match search_obj_fields fields parts fname cur {ctx with single := false} [] with
           | .error earlyReturn => some earlyReturn
           | .ok results =>
             objAssemble fields parts fname cur {ctx with single := false} results)
        from by simp [search_json_value]]
    rw [search_obj_fields_nonsingle parts fname {ctx with single := false} rfl]
    dsimp only
    rw [objAssemble_nonsingle fields parts fname cur {ctx with single := false} _ rfl]
    simp
  · rw [show search_json_value (.arr items) parts fname cur {ctx with single := false}
        = (match search_arr_items items parts fname cur {ctx with single := false} 0 [] with
           | .error earlyReturn => some earlyReturn
           | .ok results => if !results.isEmpty then some results else none)
        from by simp [search_json_value]]
    rw [search_arr_items_nonsingle parts fname {ctx with single := false} rfl]
    dsimp only
    cases hflat : ((items.enumFrom 0).map (fun p =>
        (search_json_value p.2 parts fname (cur ++ [toString p.1])
          {ctx with single := false}).getD [])).flatten with
    | nil => simp
    | cons y ys => simp

/-- Claim C4: `parse_search_path` splits at the last occurrence of the
separator: on success the field name is the suffix after that occurrence
(the whole expression, with no ancestor segments, when the separator does
not occur) and the ancestor segments split the prefix at every occurrence;
it returns the malformed-path error exactly when that field name is empty. -/
theorem parse_search_path_last_separator (s sep : String) :
    (∀ parts fname, parse_search_path s sep = .ok (parts, fname) →
      ((∃ i, occursAt s.data sep.data i ∧ (∀ j, occursAt s.data sep.data j → j ≤ i) ∧
          fname = ⟨s.data.drop (i + sep.data.length)⟩ ∧ fname ≠ "" ∧
          parts = splitSep ⟨s.data.take i⟩ sep)
        ∨ ((∀ j, ¬ occursAt s.data sep.data j) ∧ parts = [] ∧ fname = s ∧ s ≠ "")))
    ∧ (parse_search_path s sep = .error malformedPathMsg ↔
        ((∃ i, occursAt s.data sep.data i ∧ (∀ j, occursAt s.data sep.data j → j ≤ i) ∧
            s.data.drop (i + sep.data.length) = [])
          ∨ ((∀ j, ¬ occursAt s.data sep.data j) ∧ s = ""))) := by
  constructor
  · rintro parts fname h
    cases hfl : findLastIdx s.data sep.data with
    | none =>
      have hnone := (findLastIdx_eq_none s.data sep.data).mp hfl
      rw [parse_search_path_eq_none s sep hfl] at h
      by_cases hs : s = ""
      · rw [if_pos hs] at h
        simp at h
      · rw [if_neg hs] at h
        simp only [Except.ok.injEq, Prod.mk.injEq] at h
        obtain ⟨h1, h2⟩ := h
        exact Or.inr ⟨hnone, h1.symm, h2.symm, hs⟩
    | some i =>
      obtain ⟨hocc, hmax⟩ := (findLastIdx_eq_some s.data sep.data i).mp hfl
      rw [parse_search_path_eq_some s sep i hfl] at h
      by_cases hfn : (⟨s.data.drop (i + sep.data.length)⟩ : String) = ""
      · rw [if_pos hfn] at h
        simp at h
      · rw [if_neg hfn] at h
        simp only [Except.ok.injEq, Prod.mk.injEq] at h
        obtain ⟨h1, h2⟩ := h
        exact Or.inl ⟨i, hocc, hmax, h2.symm, h2 ▸ hfn, h1.symm⟩
  · cases hfl : findLastIdx s.data sep.data with
    | none =>
      have hnone := (findLastIdx_eq_none s.data sep.data).mp hfl
      rw [parse_search_path_eq_none s sep hfl]
      by_cases hs : s = ""
      · rw [if_pos hs]
        exact iff_of_true rfl (Or.inr ⟨hnone, hs⟩)
      · rw [if_neg hs]
        refine iff_of_false (by simp) ?_
        rintro (⟨i, hocc, -, -⟩ | ⟨-, hs'⟩)
        · exact absurd hocc (hnone i)
        · exact absurd hs' hs
    | some i =>
      obtain ⟨hocc, hmax⟩ := (findLastIdx_eq_some s.data sep.data i).mp hfl
      rw [parse_search_path_eq_some s sep i hfl]
      by_cases hfn : (⟨s.data.drop (i + sep.data.length)⟩ : String) = ""
      · rw [if_pos hfn]
        exact iff_of_true rfl
          (Or.inl ⟨i, hocc, hmax, (str_mk_eq_empty_iff _).mp hfn⟩)
      · rw [if_neg hfn]
        refine iff_of_false (by simp) ?_
        rintro (⟨i', hocc', hmax', hdrop'⟩ | ⟨hnone', -⟩)
        · have hii : i' = i := Nat.le_antisymm (hmax i' hocc') (hmax' i hocc)
          subst hii
          exact absurd ((str_mk_eq_empty_iff _).mpr hdrop') hfn
        · exact absurd hocc (hnone' i)

/-- Claim C5: `from_search_term` tries the range form first and the single
comparison only when the range fails; a bare numeral or an unsupported
operator makes both fail and the result is the non-error `none`. -/
theorem numeric_term_range_then_single (t : String) :
    (∀ r, NumericSearchTerm.parse_as_range t = some r →
        NumericSearchTerm.from_search_term t = some r)
    ∧ (NumericSearchTerm.parse_as_range t = none →
        NumericSearchTerm.from_search_term t = NumericSearchTerm.parse_as_single t)
    ∧ NumericSearchTerm.from_search_term "10" = none
    ∧ NumericSearchTerm.from_search_term "~10" = none := by
  refine ⟨fun r h => ?_, fun h => ?_, by decide, by decide⟩
  · simp [NumericSearchTerm.from_search_term, h]
  · simp only [NumericSearchTerm.from_search_term, h]
    cases NumericSearchTerm.parse_as_single t <;> rfl

/-- Claim C6: a range comparison holds exactly when both component
comparisons hold; swapping the two operator/operand pairs never changes the
outcome; and the unsatisfiable `<5>10` is accepted by the grammar yet
matches no value.  Stated for both the `NumericSearchTerm` methods
(syntax.rs) and `compare_number_range` (parse.rs). -/
theorem range_predicate_conjunction (op1 op2 : ComparisonOperator)
    (n1 n2 j : ℚ) (sop1 sop2 : String) (t1 t2 : ℚ) :
    ((NumericSearchTerm.rangeComparison op1 n1 op2 n2).matches j
      = ((NumericSearchTerm.singleComparison op1 n1).matches j
          && (NumericSearchTerm.singleComparison op2 n2).matches j))
    ∧ ((NumericSearchTerm.rangeComparison op1 n1 op2 n2).matches j
      = (NumericSearchTerm.rangeComparison op2 n2 op1 n1).matches j)
    ∧ (compare_number_range j t1 sop1 t2 sop2
      = (compare_numbers j t1 sop1 && compare_numbers j t2 sop2))
    ∧ (compare_number_range j t1 sop1 t2 sop2 = compare_number_range j t2 sop2 t1 sop1)
    ∧ NumericSearchTerm.from_search_term "<5>10"
      = some (.rangeComparison .lessThan 5 .greaterThan 10)
    ∧ ∀ x : ℚ, (NumericSearchTerm.rangeComparison .lessThan 5 .greaterThan 10).matches x
        = false := by
  refine ⟨rfl, ?_, rfl, ?_, ?_, fun x => ?_⟩
  · simp [NumericSearchTerm.matches, NumericSearchTerm.compare_range, Bool.and_comm]
  · simp [compare_number_range, Bool.and_comm]
  · simp [NumericSearchTerm.from_search_term, NumericSearchTerm.parse_as_range,
      rangeOp1Try, rangeOp2Try, NumericSearchTerm.parse_as_single, singleOpsTry,
      stripPre, listIsPre, findFrom, parseF64L, splitAtChar, decimalValue,
      natOfDigits, ComparisonOperator.fromStr]
  · simp only [NumericSearchTerm.matches, NumericSearchTerm.compare_range,
      NumericSearchTerm.compare_single, Bool.and_eq_false_iff]
    by_cases h : x < 5
    · right
      have : ¬ (10 : ℚ) < x := by linarith
      simpa using this
    · left
      simpa using h

/-- Claim C7: every result the traversal produces is formatted from a path
that is the separator-join of some ancestor segments followed by the target
field name: the path ends with the field name (at the character level it
has the field name as a suffix) and is non-empty whenever the field name
is. -/
theorem result_path_ends_with_field_name (v : Json) (parts : List String)
    (fname : String) (cur : List String) (ctx : SearchContext) (res : List String)
    (h : search_json_value v parts fname cur ctx = some res) :
    ∀ r ∈ res, ∃ segs value,
      r = output_string ctx (strJoin ctx.field_path_separator (segs ++ [fname])) value
      ∧ (∃ pre, (strJoin ctx.field_path_separator (segs ++ [fname])).data
          = pre ++ fname.data)
      ∧ (fname ≠ "" → strJoin ctx.field_path_separator (segs ++ [fname]) ≠ "") := by
  intro r hr
  obtain ⟨segs, value, hrec⟩ :=
    results_shape parts fname ctx (sizeOf v) v (Nat.le_refl _) cur res h r hr
  obtain ⟨pre, hpre⟩ := strJoin_field_name_data ctx.field_path_separator segs fname
  refine ⟨segs, value, ?_, ⟨pre, hpre⟩, ?_⟩
  · rw [hrec, full_path_eq_join]
  · intro hfn hemp
    apply hfn
    apply String.ext
    have hd : pre ++ fname.data = ("" : String).data := by rw [← hpre, hemp]
    simp only [show ("" : String).data = [] from rfl, List.append_eq_nil] at hd
    rw [hd.2]

/-- Witness for C7: the search of the single-field document whose field `a`
holds the string `x`, under the match-anything regex context. -/
theorem result_path_ends_with_field_name_witness :
    ∃ segs value,
      "a: x" = output_string ctxPlain
        (strJoin ctxPlain.field_path_separator (segs ++ ["a"])) value
      ∧ (∃ pre, (strJoin ctxPlain.field_path_separator (segs ++ ["a"])).data
          = pre ++ "a".data)
      ∧ ("a" ≠ "" → strJoin ctxPlain.field_path_separator (segs ++ ["a"]) ≠ "") :=
  result_path_ends_with_field_name (.obj [("a", Json.str "x")]) [] "a" [] ctxPlain
    ["a: x"]
    (by simp [search_json_value, search_obj_fields, objAssemble, check_object_match,
      check_path_matches, objGet, value_to_string, trimQuotes, output_string,
      full_path, strJoin, strJoinL, ctxPlain, matchAnything])
    "a: x" (by simp)

/-- Claim C8: on every successful parse, joining the returned ancestor
segments with the same separator reproduces exactly the part of the
expression before the last separator occurrence (the empty string when the
separator does not occur). -/
theorem join_segments_round_trip (s sep : String) (parts : List String)
    (fname : String) (h : parse_search_path s sep = .ok (parts, fname)) :
    (∃ i, occursAt s.data sep.data i ∧ (∀ j, occursAt s.data sep.data j → j ≤ i) ∧
        strJoin sep parts = ⟨s.data.take i⟩)
    ∨ ((∀ j, ¬ occursAt s.data sep.data j) ∧ strJoin sep parts = "") := by
  cases hfl : findLastIdx s.data sep.data with
  | none =>
    have hnone := (findLastIdx_eq_none s.data sep.data).mp hfl
    rw [parse_search_path_eq_none s sep hfl] at h
    by_cases hs : s = ""
    · rw [if_pos hs] at h
      simp at h
    · rw [if_neg hs] at h
      simp only [Except.ok.injEq, Prod.mk.injEq] at h
      obtain ⟨h1, -⟩ := h
      subst h1
      exact Or.inr ⟨hnone, rfl⟩
  | some i =>
    obtain ⟨hocc, hmax⟩ := (findLastIdx_eq_some s.data sep.data i).mp hfl
    rw [parse_search_path_eq_some s sep i hfl] at h
    by_cases hfn : (⟨s.data.drop (i + sep.data.length)⟩ : String) = ""
    · rw [if_pos hfn] at h
      simp at h
    · rw [if_neg hfn] at h
      simp only [Except.ok.injEq, Prod.mk.injEq] at h
      obtain ⟨h1, -⟩ := h
      subst h1
      have hsep : sep.data ≠ [] := by
        intro hsd
        apply hfn
        apply (str_mk_eq_empty_iff _).mpr
        have hocc_len : occursAt s.data sep.data s.data.length := by
          constructor
          · simp [hsd]
          · exact ⟨[], by simp [hsd]⟩
        have hi : s.data.length ≤ i := hmax _ hocc_len
        have hi2 : i ≤ s.data.length := occursAt_bound hocc
        have hie : i = s.data.length := by omega
        rw [hie, hsd]
        simp
      exact Or.inl ⟨i, hocc, hmax, strJoin_splitSep ⟨s.data.take i⟩ sep hsep⟩

/-- Witness for C8 at the repository's own test input `a.b.c.field` with
separator `.`. -/
theorem join_segments_round_trip_witness :
    (∃ i, occursAt "a.b.c.field".data ".".data i ∧
        (∀ j, occursAt "a.b.c.field".data ".".data j → j ≤ i) ∧
        strJoin "." ["a", "b", "c"] = ⟨"a.b.c.field".data.take i⟩)
    ∨ ((∀ j, ¬ occursAt "a.b.c.field".data ".".data j) ∧
        strJoin "." ["a", "b", "c"] = "") :=
  join_segments_round_trip "a.b.c.field" "." ["a", "b", "c"] "field" (by rfl)

/-- Claim C10: in regex mode every leading and trailing double quote of the
stringified field value — including quotes that are part of a JSON string's
own content — is stripped before the regex engine sees it, so a matcher
that requires a leading quote can never match; the trimmed text also never
ends in a quote. -/
theorem regex_sees_quote_trimmed_value (ctx : SearchContext)
    (obj : List (String × Json)) (field_path_parts : List String)
    (field_name : String) (current_path : List String) (s : String)
    (hnum : ctx.numeric_search = false)
    (hget : objGet obj field_name = some (.str s))
    (hre : ∀ t : String, t.data.head? ≠ some '"' → ctx.regexIsMatch t = false) :
    check_object_match obj field_path_parts field_name current_path ctx = []
    ∧ (trimQuotes (value_to_string (.str s))).data.head? ≠ some '"'
    ∧ (trimQuotes (value_to_string (.str s))).data.getLast? ≠ some '"' := by
  have hval : value_to_string (.str s) = s := rfl
  refine ⟨?_, by rw [hval]; exact (trimQuotes_head_getLast s).1,
    by rw [hval]; exact (trimQuotes_head_getLast s).2⟩
  have hmatch : ctx.regexIsMatch (trimQuotes (value_to_string (.str s))) = false := by
    rw [hval]
    exact hre (trimQuotes s) (trimQuotes_head_getLast s).1
  cases hpm : check_path_matches field_path_parts current_path with
  | false => simp [check_object_match, hpm]
  | true => simp [check_object_match, hpm, hget, hnum, hmatch]

/-- Witness for C10: a matcher that accepts only quote-initial strings, a
string value whose content is quoted, and the empty accumulated path. -/
theorem regex_sees_quote_trimmed_value_witness :
    check_object_match [("a", Json.str "\"q\"")] [] "a" [] ctxQuoteAnchored = []
    ∧ (trimQuotes (value_to_string (Json.str "\"q\""))).data.head? ≠ some '"'
    ∧ (trimQuotes (value_to_string (Json.str "\"q\""))).data.getLast? ≠ some '"' := by
  apply regex_sees_quote_trimmed_value ctxQuoteAnchored
    [("a", Json.str "\"q\"")] [] "a" [] "\"q\""
  · rfl
  · rfl
  · intro t h
    simp only [ctxQuoteAnchored, matchLeadingQuote]
    exact decide_eq_false h

/-- Claim C9: when the document text does not decode as JSON, processing it
yields no results — the search is never invoked for that document. -/
theorem invalid_json_yields_no_results (raw : String) (field_path_parts : List String)
    (field_name : String) (ctx : SearchContext) (h : from_str raw = none) :
    process_json_input raw field_path_parts field_name ctx = none := by
  simp [process_json_input, h]

/-- Witness for C9 at the malformed document text of the repository's own
test, an opening brace followed by a bare word. -/
theorem invalid_json_yields_no_results_witness :
    process_json_input "\x7binvalid json" [] "a" ctxPlain = none := by
  apply invalid_json_yields_no_results
  simp [from_str, parseValue, parseMembers, skipWs, parseStringBody, parseJsonNumber]

end Srch
